import Mathlib

/-!
Shallow embedding of the cohort ("safras") analysis pipeline of
src/curva_abcd_safras.py, together with proofs of the specified properties.

The program consumes a CSV of longitudinal per-consultant records, collapses
them into one consolidated profile per consultant (function
load_and_prepare_data, lines 8-39), and then computes three tables over a
filtered set of profiles (function main):
  1. the AuC attainment distribution (df_auc_contagem / df_total / df_auc_pct,
     lines 124-129),
  2. the revenue attainment distribution (df_receita_contagem / df_receita_pct,
     lines 165-169),
  3. the churn table (df_desligados / df_deslig_pct, lines 205-210).

Modelling choices, stated once here:
  * A CSV row is a RawRecord.  Timestamps are Option Nat: pd.to_datetime with
    errors coerce maps an unparseable date to NaT, embedded as none.  The
    pandas sort places NaT last (na_position default), so the comparator below
    treats none as the greatest key.
  * pandas sort_values on several columns is a stable lexicographic sort.  A
    stable sort is uniquely determined by the comparator and the input order,
    so it is embedded as Mathlib insertionSort (structurally recursive and
    provably stable), with the lexicographic (email, data) comparator.
  * pandas groupby iterates the distinct keys; rows inside a group keep frame
    order; rows whose group key is NaN are dropped.  Groups are embedded as
    filters of the sorted list over the deduplicated key list.
  * Numeric percentage arithmetic is embedded as exact rational arithmetic;
    Series.round(1) is embedded as rounding to one decimal digit on the
    rationals (the direction of ties is immaterial to every property proved
    below, which only uses that rounding moves a value by at most 1/20).
  * The Turma (cohort) column is embedded as a total Int: the spec data model
    assigns every record a cohort, and no claim concerns missing cohorts.
-/

/-- One raw CSV row: columns E-mail, Data, Turma, MF, Curva AuC,
Curva Receita do Consultor, Status. -/
structure RawRecord where
  email : String
  data : Option Nat
  turma : Int
  mf : String
  curvaAuC : Option String
  curvaReceita : Option String
  status : String
deriving DecidableEq

/-- One consolidated row of df_agg after the MF relabelling and the column
renames (lines 18-38): the mf field holds the mapped label (the map sends an
unexpected value to NaN, embedded as none). -/
structure Profile where
  email : String
  turma : Int
  mf : Option String
  curvaAuC : Option String
  curvaReceita : Option String
  status : String
deriving DecidableEq

/-- Order on the Data column used by sort_values: none is the NaT sentinel and
sorts after every parsed timestamp (na_position last). -/
def dataLeB : Option Nat → Option Nat → Bool
  | _, none => true
  | none, some _ => false
  | some x, some y => decide (x ≤ y)

/-- Lexicographic comparator of sort_values(by=[E-mail, Data]) (line 15).
String comparison is performed on the underlying character lists, which is
definitionally the String order. -/
def recLeB (a b : RawRecord) : Bool :=
  decide (a.email.data < b.email.data) || (a.email == b.email && dataLeB a.data b.data)

/-- Propositional form of the record comparator. -/
def recLe (a b : RawRecord) : Prop := recLeB a b = true

instance : DecidableRel recLe := fun a b => inferInstanceAs (Decidable (recLeB a b = true))

/-- Stable sort of the raw rows by (E-mail, Data), line 15. -/
def sortRecords (records : List RawRecord) : List RawRecord :=
  List.insertionSort recLe records

/-- Alphabetical minimum of two curve letters, the binary step of the min
aggregation (lines 22-23); comparison on the character lists is
definitionally the String order. -/
def strMin (a b : String) : String := if b.data < a.data then b else a

/-- Fold step of the pandas min aggregation over an object column: NaN (none)
values are skipped. -/
def optMin : Option String → Option String → Option String
  | none, b => b
  | some a, none => some a
  | some a, some b => some (strMin a b)

/-- Column min with skipna semantics: the alphabetically smallest present
value, none when every value is missing. -/
def colMin (l : List (Option String)) : Option String := l.foldr optMin none

/-- The mf_map dictionary (lines 28-31); Series.map sends a key outside the
dictionary to NaN, embedded as none. -/
def mf_map (s : String) : Option String :=
  if s = "Sim" then some "Profissionais de mercado financeiro (MF)"
  else if s = "Não" then some "Profissionais em migração de carreira"
  else none

/-- Aggregation of one E-mail group g (rows already in sorted frame order):
the agg dictionary of lines 18-25 followed by the MF relabelling.  The empty
case of the Turma field is never reached, since groupby only produces
nonempty groups. -/
def aggGroup (e : String) (g : List RawRecord) : Profile where
  email := e
  turma := match g with
    | [] => 0
    | r :: _ => r.turma
  mf := mf_map (if g.any (fun r => r.mf == "Sim") then "Sim" else "Não")
  curvaAuC := colMin (g.map (fun r => r.curvaAuC))
  curvaReceita := colMin (g.map (fun r => r.curvaReceita))
  status := if g.any (fun r => r.status == "Desligado") then "Desligado" else "Ativo"

/-- The whole of load_and_prepare_data (lines 8-39): sort by (E-mail, Data),
group by E-mail, aggregate each group. -/
def load_and_prepare_data (records : List RawRecord) : List Profile :=
  let sorted := sortRecords records
  ((sorted.map (fun r => r.email)).dedup).map
    (fun e => aggGroup e (sorted.filter (fun r => r.email == e)))

/-- Earliest record of a group in the sense of the stable sort: the first
record, in input order, whose Data key is dataLeB-below the Data key of every
record of the group. -/
def chronoFirst (l : List RawRecord) : Option RawRecord :=
  l.find? (fun r => l.all (fun r2 => dataLeB r.data r2.data))

/-- Rounding of Series.round(1): round to one decimal digit, embedded on the
rationals.  Every property proved below only uses that the rounded value is
within 1/20 of the argument, so the tie direction is immaterial. -/
def round1 (q : ℚ) : ℚ := ((round (10 * q) : ℤ) : ℚ) / 10

/-- Distinct (Turma, MF) keys of groupby([Turma, MF]) over a profile frame
(line 125): rows with a NaN MF carry no key and are dropped by groupby. -/
def pairKeys (ps : List Profile) : List (Int × String) :=
  (ps.filterMap (fun p => p.mf.map (fun m => (p.turma, m)))).dedup

/-- Number of frame rows carrying a given (Turma, MF) key. -/
def pairCount (ps : List Profile) (k : Int × String) : Nat :=
  (ps.filter (fun p => p.turma == k.1 && p.mf == some k.2)).length

/-- df_total = df_filtered.groupby([Turma, MF]).size() (line 125): one row
per present key with the size of its group. -/
def df_total (ps : List Profile) : List ((Int × String) × Nat) :=
  (pairKeys ps).map (fun k => (k, pairCount ps k))

/-- Distinct (Turma, MF, curve letter) keys of groupby on an attainment
column attr (lines 124 and 165): rows with NaN in any key column are
dropped. -/
def tripleKeys (attr : Profile → Option String) (ps : List Profile) :
    List (Int × String × String) :=
  (ps.filterMap (fun p =>
    match p.mf, attr p with
    | some m, some c => some (p.turma, m, c)
    | _, _ => none)).dedup

/-- Number of frame rows carrying a given (Turma, MF, curve letter) key. -/
def tripleCount (attr : Profile → Option String) (ps : List Profile)
    (k : Int × String × String) : Nat :=
  (ps.filter (fun p =>
    p.turma == k.1 && p.mf == some k.2.1 && attr p == some k.2.2)).length

/-- df_auc_contagem / df_receita_contagem (lines 124, 165): one row per
present triple key with the size of its group. -/
def df_contagem (attr : Profile → Option String) (ps : List Profile) :
    List ((Int × String × String) × Nat) :=
  (tripleKeys attr ps).map (fun k => (k, tripleCount attr ps k))

/-- One row of a distribution table after the merge with df_total and the
percentage columns (lines 126-129): the merged frame keeps the key columns,
Contagem, Total, and the rounded percentage. -/
structure DistRow where
  turma : Int
  mf : String
  curva : String
  contagem : Nat
  total : Nat
  pct : ℚ
deriving DecidableEq

/-- pd.merge(contagem, df_total, on=[Turma, MF]) followed by the percentage
computation and round(1) (lines 126-129 and 166-169).  The inner join is an
Option-valued lookup of the unique df_total row with the same pair key. -/
def distTable (attr : Profile → Option String) (ps : List Profile) :
    List DistRow :=
  (df_contagem attr ps).filterMap (fun kc =>
    ((df_total ps).lookup (kc.1.1, kc.1.2.1)).map (fun tot =>
      { turma := kc.1.1
        mf := kc.1.2.1
        curva := kc.1.2.2
        contagem := kc.2
        total := tot
        pct := round1 (100 * (kc.2 : ℚ) / (tot : ℚ)) }))

/-- df_auc_pct (lines 124-129). -/
def df_auc_pct (ps : List Profile) : List DistRow :=
  distTable (fun p => p.curvaAuC) ps

/-- df_receita_pct (lines 165-169). -/
def df_receita_pct (ps : List Profile) : List DistRow :=
  distTable (fun p => p.curvaReceita) ps

/-- df_desligados (line 205): groupby([Turma, MF]).size() over the rows with
Status == Desligado, which is df_total of the filtered frame. -/
def df_desligados (ps : List Profile) : List ((Int × String) × Nat) :=
  df_total (ps.filter (fun p => p.status == "Desligado"))

/-- One row of the churn table df_deslig_pct (lines 206-210). -/
structure ChurnRow where
  turma : Int
  mf : String
  total : Nat
  desligados : Nat
  taxa : ℚ
deriving DecidableEq

/-- pd.merge(df_total, df_desligados, how=left) with fillna(0), the rate
computation and round(1) (lines 206-210): every df_total row yields exactly
one output row; a missing df_desligados partner contributes count 0. -/
def df_deslig_pct (ps : List Profile) : List ChurnRow :=
  (df_total ps).map (fun kt =>
    let d := ((df_desligados ps).lookup kt.1).getD 0
    { turma := kt.1.1
      mf := kt.1.2
      total := kt.2
      desligados := d
      taxa := round1 (100 * (d : ℚ) / (kt.2 : ℚ)) })

/-- Cohort filter df[df[Turma].isin(turmas_selecionadas)] (line 104). -/
def dfFiltered (ps : List Profile) (sel : Finset Int) : List Profile :=
  ps.filter (fun p => decide (p.turma ∈ sel))

/-- Sum of the percentage column over the distribution rows of one
(Turma, MF) group, before rounding (recomputed from the Contagem and Total
columns the merged frame keeps). -/
def sumPctPre (tbl : List DistRow) (t : Int) (m : String) : ℚ :=
  ((tbl.filter (fun r => r.turma == t && r.mf == m)).map
    (fun r => 100 * (r.contagem : ℚ) / (r.total : ℚ))).sum

/-- Sum of the rounded percentage column over the distribution rows of one
(Turma, MF) group. -/
def sumPct (tbl : List DistRow) (t : Int) (m : String) : ℚ :=
  ((tbl.filter (fun r => r.turma == t && r.mf == m)).map (fun r => r.pct)).sum

/-- Number of distribution rows of one (Turma, MF) group. -/
def nRows (tbl : List DistRow) (t : Int) (m : String) : Nat :=
  (tbl.filter (fun r => r.turma == t && r.mf == m)).length

/-- One item of the multiselect of lines 80-84: one of the three macro labels
of opcoes_especiais, or an individual cohort number. -/
inductive SelItem where
  | selecionarTodas
  | dadosFce
  | dadosSemFce
  | turma (t : Int)
deriving DecidableEq

/-- Expansion of a single selection item into a set of cohort numbers, as in
the body of the resolution loop (lines 92-100). -/
def expandItem (avail : List Int) : SelItem → Finset Int
  | .selecionarTodas => avail.toFinset
  | .dadosFce => (avail.filter (fun t => 24 ≤ t)).toFinset
  | .dadosSemFce => (avail.filter (fun t => t < 24)).toFinset
  | .turma t => {t}

/-- The resolution loop building turmas_selecionadas_set (lines 91-100):
starting from the empty set, each item either unions in a macro expansion or
adds an individual cohort. -/
def turmasSelecionadasSet (avail : List Int) (selecaoRaw : List SelItem) :
    Finset Int :=
  selecaoRaw.foldl (fun s item =>
    match item with
    | .selecionarTodas => s ∪ avail.toFinset
    | .dadosFce => s ∪ (avail.filter (fun t => 24 ≤ t)).toFinset
    | .dadosSemFce => s ∪ (avail.filter (fun t => t < 24)).toFinset
    | .turma t => insert t s) ∅

/-! ### Order facts about the comparators -/

theorem strLt_iff (a b : String) : a.data < b.data ↔ a < b := by
  rw [String.lt_iff_toList_lt]
  exact Iff.rfl

theorem dataLeB_refl (x : Option Nat) : dataLeB x x = true := by
  cases x <;> simp [dataLeB]

theorem dataLeB_trans {x y z : Option Nat} (h1 : dataLeB x y = true)
    (h2 : dataLeB y z = true) : dataLeB x z = true := by
  cases x <;> cases y <;> cases z <;> simp_all [dataLeB] <;> omega

theorem dataLeB_total (x y : Option Nat) :
    dataLeB x y = true ∨ dataLeB y x = true := by
  cases x <;> cases y <;> simp [dataLeB] <;> omega

theorem dataLeB_antisymm {x y : Option Nat} (h1 : dataLeB x y = true)
    (h2 : dataLeB y x = true) : x = y := by
  cases x <;> cases y <;> simp_all [dataLeB] <;> omega

theorem recLe_iff (a b : RawRecord) :
    recLe a b ↔ a.email < b.email ∨ (a.email = b.email ∧ dataLeB a.data b.data = true) := by
  unfold recLe recLeB
  rw [Bool.or_eq_true, Bool.and_eq_true, decide_eq_true_eq, beq_iff_eq, strLt_iff]

instance : IsTrans RawRecord recLe := by
  constructor
  intro a b c hab hbc
  rw [recLe_iff] at hab hbc ⊢
  rcases hab with h1 | ⟨e1, d1⟩
  · rcases hbc with h2 | ⟨e2, d2⟩
    · exact Or.inl (lt_trans h1 h2)
    · exact Or.inl (e2 ▸ h1)
  · rcases hbc with h2 | ⟨e2, d2⟩
    · exact Or.inl (e1 ▸ h2)
    · exact Or.inr ⟨e1.trans e2, dataLeB_trans d1 d2⟩

instance : IsTotal RawRecord recLe := by
  constructor
  intro a b
  rcases lt_trichotomy a.email b.email with h | h | h
  · exact Or.inl (by rw [recLe_iff]; exact Or.inl h)
  · rcases dataLeB_total a.data b.data with hd | hd
    · exact Or.inl (by rw [recLe_iff]; exact Or.inr ⟨h, hd⟩)
    · exact Or.inr (by rw [recLe_iff]; exact Or.inr ⟨h.symm, hd⟩)
  · exact Or.inr (by rw [recLe_iff]; exact Or.inl h)

theorem recLe_of_same_email {a b : RawRecord} (h : a.email = b.email)
    (hd : dataLeB a.data b.data = true) : recLe a b := by
  rw [recLe_iff]; exact Or.inr ⟨h, hd⟩

theorem dataLeB_of_recLe_same_email {a b : RawRecord} (h : a.email = b.email)
    (hr : recLe a b) : dataLeB a.data b.data = true := by
  rw [recLe_iff] at hr
  rcases hr with hlt | ⟨_, hd⟩
  · exact absurd hlt (by rw [h]; exact lt_irrefl _)
  · exact hd

/-! ### The alphabetical minimum -/

theorem strMin_eq_or (a b : String) : strMin a b = a ∨ strMin a b = b := by
  unfold strMin
  split
  · exact Or.inr rfl
  · exact Or.inl rfl

theorem strMin_le_left (a b : String) : strMin a b ≤ a := by
  unfold strMin
  split
  · rename_i h
    exact le_of_lt ((strLt_iff _ _).mp h)
  · exact le_refl a

theorem strMin_le_right (a b : String) : strMin a b ≤ b := by
  unfold strMin
  split
  · exact le_refl b
  · rename_i h
    exact not_lt.mp (fun hc => h ((strLt_iff _ _).mpr hc))

theorem colMin_cons (v : Option String) (l : List (Option String)) :
    colMin (v :: l) = optMin v (colMin l) := rfl

theorem colMin_eq_none_iff (l : List (Option String)) :
    colMin l = none ↔ ∀ v ∈ l, v = none := by
  induction l with
  | nil => simp [colMin]
  | cons v l ih =>
    rw [colMin_cons]
    cases v with
    | none => simpa [optMin] using ih
    | some a =>
      cases h : colMin l <;> simp [optMin]

theorem colMin_mem :
    ∀ (l : List (Option String)) (c : String), colMin l = some c → some c ∈ l := by
  intro l
  induction l with
  | nil => intro c h; simp [colMin] at h
  | cons v l ih =>
    intro c h
    rw [colMin_cons] at h
    cases v with
    | none =>
      simp only [optMin] at h
      exact List.mem_cons_of_mem _ (ih c h)
    | some a =>
      cases hm : colMin l with
      | none =>
        rw [hm] at h
        simp only [optMin, Option.some.injEq] at h
        subst h
        exact List.mem_cons_self _ _
      | some b =>
        rw [hm] at h
        simp only [optMin, Option.some.injEq] at h
        rcases strMin_eq_or a b with he | he
        · rw [he] at h
          subst h
          exact List.mem_cons_self _ _
        · rw [he] at h
          subst h
          exact List.mem_cons_of_mem _ (ih b hm)

theorem colMin_le :
    ∀ (l : List (Option String)) (c : String), colMin l = some c →
      ∀ v ∈ l, ∀ c2, v = some c2 → c ≤ c2 := by
  intro l
  induction l with
  | nil => simp
  | cons v l ih =>
    intro c h
    rw [colMin_cons] at h
    intro w hw c2 hwc
    subst hwc
    rcases List.mem_cons.mp hw with he | ht
    · -- the head element
      subst he
      cases hm : colMin l with
      | none =>
        rw [hm] at h
        simp only [optMin, Option.some.injEq] at h
        subst h
        exact le_refl _
      | some b =>
        rw [hm] at h
        simp only [optMin, Option.some.injEq] at h
        subst h
        exact strMin_le_left _ _
    · -- a tail element
      cases v with
      | none =>
        simp only [optMin] at h
        exact ih c h _ ht _ rfl
      | some a =>
        cases hm : colMin l with
        | none =>
          rw [colMin_eq_none_iff] at hm
          exact absurd (hm _ ht) (by simp)
        | some b =>
          rw [hm] at h
          simp only [optMin, Option.some.injEq] at h
          subst h
          exact le_trans (strMin_le_right a b) (ih b hm _ ht _ rfl)

/-! ### Generic list lemmas -/

theorem filterMap_eq_map_of_forall_some {α β : Type _} {g : α → Option β}
    {h : α → β} :
    ∀ l : List α, (∀ x ∈ l, g x = some (h x)) → l.filterMap g = l.map h := by
  intro l
  induction l with
  | nil => intro _; rfl
  | cons a l ih =>
    intro hall
    rw [List.filterMap_cons, hall a (List.mem_cons_self _ _), List.map_cons,
      ih (fun x hx => hall x (List.mem_cons_of_mem _ hx))]

theorem lookup_map_key_mem {α β : Type _} [BEq α] [LawfulBEq α]
    {l : List α} (f : α → β) {k : α} (hk : k ∈ l) :
    (l.map (fun x => (x, f x))).lookup k = some (f k) := by
  induction l with
  | nil => simp at hk
  | cons a l ih =>
    rw [List.map_cons, List.lookup_cons]
    by_cases h : k = a
    · subst h
      simp
    · have hne : (k == a) = false := beq_false_of_ne h
      rw [hne]
      exact ih (List.mem_of_ne_of_mem h hk)

theorem lookup_map_key_not_mem {α β : Type _} [BEq α] [LawfulBEq α]
    {l : List α} (f : α → β) {k : α} (hk : k ∉ l) :
    (l.map (fun x => (x, f x))).lookup k = none := by
  induction l with
  | nil => rfl
  | cons a l ih =>
    rw [List.map_cons, List.lookup_cons]
    have hne : (k == a) = false :=
      beq_false_of_ne (fun h => hk (h ▸ List.mem_cons_self _ _))
    rw [hne]
    exact ih (fun h => hk (List.mem_cons_of_mem _ h))

theorem find?_eq_head?_filter {α : Type _} (p : α → Bool) :
    ∀ l : List α, l.find? p = (l.filter p).head? := by
  intro l
  induction l with
  | nil => rfl
  | cons a l ih =>
    rw [List.find?_cons, List.filter_cons]
    cases h : p a
    · simpa using ih
    · simp

theorem length_filterMap_of_forall_some {α β : Type _} {f : α → Option β} :
    ∀ l : List α, (∀ x ∈ l, (f x).isSome) → (l.filterMap f).length = l.length := by
  intro l
  induction l with
  | nil => intro _; rfl
  | cons a l ih =>
    intro hall
    rcases Option.isSome_iff_exists.mp (hall a (List.mem_cons_self _ _)) with ⟨b, hb⟩
    rw [List.filterMap_cons, hb, List.length_cons,
      ih (fun x hx => hall x (List.mem_cons_of_mem _ hx)), List.length_cons]

theorem length_filterMap_lt_of_none {α β : Type _} {f : α → Option β} {p : α} :
    ∀ {l : List α}, p ∈ l → f p = none → (l.filterMap f).length < l.length := by
  intro l
  induction l with
  | nil => intro h; simp at h
  | cons a l ih =>
    intro hp hnone
    rcases List.mem_cons.mp hp with he | ht
    · subst he
      rw [List.filterMap_cons, hnone, List.length_cons]
      exact Nat.lt_succ_of_le (List.length_filterMap_le f l)
    · rw [List.filterMap_cons, List.length_cons]
      cases f a with
      | none => exact Nat.lt_succ_of_lt (ih ht hnone)
      | some b => exact Nat.succ_lt_succ (ih ht hnone)

theorem pairwise_of_forall_mem {α : Type _} {R : α → α → Prop} :
    ∀ {l : List α}, (∀ a ∈ l, ∀ b ∈ l, R a b) → l.Pairwise R := by
  intro l
  induction l with
  | nil => intro _; exact List.Pairwise.nil
  | cons a l ih =>
    intro h
    exact List.Pairwise.cons
      (fun b hb => h a (List.mem_cons_self _ _) b (List.mem_cons_of_mem _ hb))
      (ih (fun x hx y hy => h x (List.mem_cons_of_mem _ hx) y (List.mem_cons_of_mem _ hy)))

/-! ### Shape of load_and_prepare_data output -/

theorem mem_load_iff {records : List RawRecord} {p : Profile} :
    p ∈ load_and_prepare_data records ↔
      ∃ e ∈ ((sortRecords records).map (fun r => r.email)).dedup,
        aggGroup e ((sortRecords records).filter (fun r => r.email == e)) = p := by
  simp only [load_and_prepare_data, List.mem_map]

theorem load_group_spec {records : List RawRecord} {p : Profile}
    (hp : p ∈ load_and_prepare_data records) :
    ∃ g : List RawRecord,
      g = (sortRecords records).filter (fun r => r.email == p.email) ∧
      p = aggGroup p.email g ∧ g ≠ [] ∧
      g.Perm (records.filter (fun r => r.email == p.email)) := by
  rcases mem_load_iff.mp hp with ⟨e, he, heq⟩
  have hem : p.email = e := by rw [← heq]; rfl
  subst hem
  refine ⟨_, rfl, heq.symm, ?_, List.Perm.filter _ (List.perm_insertionSort recLe records)⟩
  rcases List.mem_map.mp (List.mem_dedup.mp he) with ⟨r, hr, hre⟩
  exact List.ne_nil_of_mem (List.mem_filter.mpr ⟨hr, beq_iff_eq.mpr hre⟩)

theorem group_mem_iff {records : List RawRecord} {p : Profile} {g : List RawRecord}
    (hperm : g.Perm (records.filter (fun r => r.email == p.email))) :
    ∀ r : RawRecord, r ∈ g ↔ r ∈ records ∧ r.email = p.email := by
  intro r
  rw [hperm.mem_iff, List.mem_filter, beq_iff_eq]

/-! ### Claims C3, C4, C5: the per-consultant aggregations -/

theorem colMin_group_spec {records : List RawRecord} {p : Profile} {g : List RawRecord}
    (hmem : ∀ r : RawRecord, r ∈ g ↔ r ∈ records ∧ r.email = p.email)
    (proj : RawRecord → Option String) (v : Option String)
    (hv : v = colMin (g.map proj)) :
    (v = none ↔ ∀ r ∈ records, r.email = p.email → proj r = none) ∧
    ∀ c, v = some c →
      (∃ r ∈ records, r.email = p.email ∧ proj r = some c) ∧
      ∀ r ∈ records, r.email = p.email → ∀ c2, proj r = some c2 → c ≤ c2 := by
  subst hv
  constructor
  · rw [colMin_eq_none_iff]
    constructor
    · intro h r hr hre
      exact h (proj r) (List.mem_map.mpr ⟨r, (hmem r).mpr ⟨hr, hre⟩, rfl⟩)
    · intro h v hvm
      rcases List.mem_map.mp hvm with ⟨r, hrg, hrv⟩
      rcases (hmem r).mp hrg with ⟨hr, hre⟩
      rw [← hrv]
      exact h r hr hre
  · intro c hc
    constructor
    · rcases List.mem_map.mp (colMin_mem _ _ hc) with ⟨r, hrg, hrv⟩
      rcases (hmem r).mp hrg with ⟨hr, hre⟩
      exact ⟨r, hr, hre, hrv⟩
    · intro r hr hre c2 hc2
      exact colMin_le _ _ hc (proj r)
        (List.mem_map.mpr ⟨r, (hmem r).mpr ⟨hr, hre⟩, rfl⟩) c2 hc2

/-- C3: for every consultant, the consolidated attainment of each track (AuC
and revenue) is the alphabetically smallest attainment value observed across
all of that consultant's records: it is below every observed value, it is
itself observed, and it is missing only when every record misses it. -/
theorem best_attainment_alphabetical_min :
    ∀ (records : List RawRecord) (p : Profile), p ∈ load_and_prepare_data records →
      ((p.curvaAuC = none ↔ ∀ r ∈ records, r.email = p.email → r.curvaAuC = none) ∧
        ∀ c, p.curvaAuC = some c →
          (∃ r ∈ records, r.email = p.email ∧ r.curvaAuC = some c) ∧
          ∀ r ∈ records, r.email = p.email → ∀ c2, r.curvaAuC = some c2 → c ≤ c2) ∧
      ((p.curvaReceita = none ↔ ∀ r ∈ records, r.email = p.email → r.curvaReceita = none) ∧
        ∀ c, p.curvaReceita = some c →
          (∃ r ∈ records, r.email = p.email ∧ r.curvaReceita = some c) ∧
          ∀ r ∈ records, r.email = p.email → ∀ c2, r.curvaReceita = some c2 → c ≤ c2) := by
  intro records p hp
  obtain ⟨g, hgdef, hpg, hne, hperm⟩ := load_group_spec hp
  have hmem := group_mem_iff hperm
  constructor
  · exact colMin_group_spec hmem (fun r => r.curvaAuC) p.curvaAuC (by rw [hpg]; rfl)
  · exact colMin_group_spec hmem (fun r => r.curvaReceita) p.curvaReceita (by rw [hpg]; rfl)

/-- Concrete three-record dataset of one consultant with attainment letters
C, A, B on both tracks. -/
def recsCAB : List RawRecord :=
  [⟨"x", some 1, 1, "Não", some "C", some "C", "Ativo"⟩,
   ⟨"x", some 2, 1, "Não", some "A", some "A", "Ativo"⟩,
   ⟨"x", some 3, 1, "Não", some "B", some "B", "Ativo"⟩]

/-- The consolidated profile of recsCAB. -/
def profCAB : Profile :=
  ⟨"x", 1, some "Profissionais em migração de carreira", some "A", some "A", "Ativo"⟩

/-- Witness for C3: on the letters C, A, B the consolidated attainment is A,
and the theorem instantiated there exhibits A among the records. -/
theorem best_attainment_alphabetical_min_witness :
    (profCAB ∈ load_and_prepare_data recsCAB ∧ profCAB.curvaAuC = some "A") ∧
      ∃ r ∈ recsCAB, r.email = profCAB.email ∧ r.curvaAuC = some "A" :=
  ⟨⟨by decide, by decide⟩,
    (((best_attainment_alphabetical_min recsCAB profCAB (by decide)).1.2) "A"
      (by decide)).1⟩

/-- C4: for every consultant the consolidated lifecycle status is Desligado
(Terminated) exactly when some record of that consultant, at any position, is
Desligado, and Ativo (Active) otherwise. -/
theorem sticky_termination :
    ∀ (records : List RawRecord) (p : Profile), p ∈ load_and_prepare_data records →
      (p.status = "Desligado" ↔ ∃ r ∈ records, r.email = p.email ∧ r.status = "Desligado") ∧
      ((¬∃ r ∈ records, r.email = p.email ∧ r.status = "Desligado") → p.status = "Ativo") := by
  intro records p hp
  obtain ⟨g, hgdef, hpg, hne, hperm⟩ := load_group_spec hp
  have hmem := group_mem_iff hperm
  have hst : p.status =
      (if g.any (fun r => r.status == "Desligado") then "Desligado" else "Ativo") := by
    rw [hpg]; rfl
  have hiff : g.any (fun r => r.status == "Desligado") = true ↔
      ∃ r ∈ records, r.email = p.email ∧ r.status = "Desligado" := by
    rw [List.any_eq_true]
    constructor
    · rintro ⟨r, hrg, hr⟩
      rcases (hmem r).mp hrg with ⟨h1, h2⟩
      exact ⟨r, h1, h2, beq_iff_eq.mp hr⟩
    · rintro ⟨r, h1, h2, h3⟩
      exact ⟨r, (hmem r).mpr ⟨h1, h2⟩, beq_iff_eq.mpr h3⟩
  cases hany : g.any (fun r => r.status == "Desligado")
  · rw [hany] at hst
    simp only [Bool.false_eq_true, if_false] at hst
    refine ⟨?_, fun _ => hst⟩
    rw [hst]
    constructor
    · intro h
      exact absurd h (by decide)
    · intro hex
      have := hiff.mpr hex
      rw [hany] at this
      exact absurd this (by decide)
  · rw [hany] at hst
    simp only [if_true] at hst
    refine ⟨?_, ?_⟩
    · rw [hst]
      exact ⟨fun _ => hiff.mp hany, fun _ => rfl⟩
    · intro hnex
      exact absurd (hiff.mp hany) hnex

/-- Concrete dataset of one consultant with statuses Ativo, Desligado, Ativo. -/
def recsADA : List RawRecord :=
  [⟨"y", some 1, 2, "Não", some "B", some "B", "Ativo"⟩,
   ⟨"y", some 2, 2, "Não", some "B", some "B", "Desligado"⟩,
   ⟨"y", some 3, 2, "Não", some "B", some "B", "Ativo"⟩]

/-- The consolidated profile of recsADA. -/
def profADA : Profile :=
  ⟨"y", 2, some "Profissionais em migração de carreira", some "B", some "B", "Desligado"⟩

/-- Witness for C4: statuses Ativo, Desligado, Ativo consolidate to
Desligado. -/
theorem sticky_termination_witness :
    profADA ∈ load_and_prepare_data recsADA ∧ profADA.status = "Desligado" :=
  ⟨by decide, ((sticky_termination recsADA profADA (by decide)).1).mpr (by decide)⟩

/-- C5: for every consultant the consolidated market-background flag carries
the MF label exactly when at least one record has flag value Sim, a logical
OR over the group independent of record order, and otherwise carries the
career-migration label. -/
theorem monotonic_market_flag :
    ∀ (records : List RawRecord) (p : Profile), p ∈ load_and_prepare_data records →
      (p.mf = some "Profissionais de mercado financeiro (MF)" ↔
        ∃ r ∈ records, r.email = p.email ∧ r.mf = "Sim") ∧
      ((¬∃ r ∈ records, r.email = p.email ∧ r.mf = "Sim") →
        p.mf = some "Profissionais em migração de carreira") := by
  intro records p hp
  obtain ⟨g, hgdef, hpg, hne, hperm⟩ := load_group_spec hp
  have hmem := group_mem_iff hperm
  have hmf : p.mf = mf_map (if g.any (fun r => r.mf == "Sim") then "Sim" else "Não") := by
    rw [hpg]; rfl
  have hiff : g.any (fun r => r.mf == "Sim") = true ↔
      ∃ r ∈ records, r.email = p.email ∧ r.mf = "Sim" := by
    rw [List.any_eq_true]
    constructor
    · rintro ⟨r, hrg, hr⟩
      rcases (hmem r).mp hrg with ⟨h1, h2⟩
      exact ⟨r, h1, h2, beq_iff_eq.mp hr⟩
    · rintro ⟨r, h1, h2, h3⟩
      exact ⟨r, (hmem r).mpr ⟨h1, h2⟩, beq_iff_eq.mpr h3⟩
  have hsim : mf_map "Sim" = some "Profissionais de mercado financeiro (MF)" := by decide
  have hnao : mf_map "Não" = some "Profissionais em migração de carreira" := by decide
  cases hany : g.any (fun r => r.mf == "Sim")
  · rw [hany] at hmf
    simp only [Bool.false_eq_true, if_false] at hmf
    rw [hnao] at hmf
    refine ⟨?_, fun _ => hmf⟩
    rw [hmf]
    constructor
    · intro h
      exact absurd h (by decide)
    · intro hex
      have := hiff.mpr hex
      rw [hany] at this
      exact absurd this (by decide)
  · rw [hany] at hmf
    simp only [if_true] at hmf
    rw [hsim] at hmf
    refine ⟨?_, ?_⟩
    · rw [hmf]
      exact ⟨fun _ => hiff.mp hany, fun _ => rfl⟩
    · intro hnex
      exact absurd (hiff.mp hany) hnex

/-- Concrete dataset of one consultant whose records carry MF values Não then
Sim. -/
def recsSim : List RawRecord :=
  [⟨"z", some 1, 3, "Não", some "B", some "B", "Ativo"⟩,
   ⟨"z", some 2, 3, "Sim", some "B", some "B", "Ativo"⟩]

/-- The consolidated profile of recsSim. -/
def profSim : Profile :=
  ⟨"z", 3, some "Profissionais de mercado financeiro (MF)", some "B", some "B", "Ativo"⟩

/-- Witness for C5: one Sim record makes the consolidated flag carry the MF
label. -/
theorem monotonic_market_flag_witness :
    profSim ∈ load_and_prepare_data recsSim ∧
      profSim.mf = some "Profissionais de mercado financeiro (MF)" :=
  ⟨by decide, ((monotonic_market_flag recsSim profSim (by decide)).1).mpr (by decide)⟩

/-! ### Shape of the distribution and churn tables -/

theorem mem_pairKeys_iff {ps : List Profile} {k : Int × String} :
    k ∈ pairKeys ps ↔ ∃ p ∈ ps, p.turma = k.1 ∧ p.mf = some k.2 := by
  unfold pairKeys
  rw [List.mem_dedup, List.mem_filterMap]
  constructor
  · rintro ⟨p, hp, hmap⟩
    cases hmf : p.mf with
    | none => rw [hmf] at hmap; simp at hmap
    | some m =>
      rw [hmf] at hmap
      have hk : (p.turma, m) = k := by simpa using hmap
      subst hk
      exact ⟨p, hp, rfl, hmf⟩
  · rintro ⟨p, hp, h1, h2⟩
    refine ⟨p, hp, ?_⟩
    rw [h2]
    simp [h1]

theorem mem_tripleKeys_iff {attr : Profile → Option String} {ps : List Profile}
    {k : Int × String × String} :
    k ∈ tripleKeys attr ps ↔
      ∃ p ∈ ps, p.turma = k.1 ∧ p.mf = some k.2.1 ∧ attr p = some k.2.2 := by
  unfold tripleKeys
  rw [List.mem_dedup, List.mem_filterMap]
  constructor
  · rintro ⟨p, hp, hmap⟩
    cases hmf : p.mf with
    | none =>
      rw [hmf] at hmap
      simp at hmap
    | some m =>
      cases hma : attr p with
      | none => rw [hmf, hma] at hmap; simp at hmap
      | some c =>
        rw [hmf, hma] at hmap
        have hk : (p.turma, m, c) = k := by simpa using hmap
        subst hk
        exact ⟨p, hp, rfl, hmf, hma⟩
  · rintro ⟨p, hp, h1, h2, h3⟩
    refine ⟨p, hp, ?_⟩
    rw [h2, h3]
    simp [h1]

theorem pair_of_triple_mem {attr : Profile → Option String} {ps : List Profile}
    {k : Int × String × String} (hk : k ∈ tripleKeys attr ps) :
    (k.1, k.2.1) ∈ pairKeys ps := by
  rcases mem_tripleKeys_iff.mp hk with ⟨p, hp, h1, h2, h3⟩
  exact mem_pairKeys_iff.mpr ⟨p, hp, h1, h2⟩

theorem df_total_lookup_mem {ps : List Profile} {k : Int × String}
    (hk : k ∈ pairKeys ps) :
    (df_total ps).lookup k = some (pairCount ps k) := by
  unfold df_total
  exact lookup_map_key_mem _ hk

theorem df_total_lookup_not_mem {ps : List Profile} {k : Int × String}
    (hk : k ∉ pairKeys ps) :
    (df_total ps).lookup k = none := by
  unfold df_total
  exact lookup_map_key_not_mem _ hk

/-- The row of the merged distribution frame produced by one triple key. -/
def distRowOf (attr : Profile → Option String) (ps : List Profile)
    (k : Int × String × String) : DistRow where
  turma := k.1
  mf := k.2.1
  curva := k.2.2
  contagem := tripleCount attr ps k
  total := pairCount ps (k.1, k.2.1)
  pct := round1 (100 * (tripleCount attr ps k : ℚ) / (pairCount ps (k.1, k.2.1) : ℚ))

theorem distTable_eq_map (attr : Profile → Option String) (ps : List Profile) :
    distTable attr ps = (tripleKeys attr ps).map (distRowOf attr ps) := by
  unfold distTable df_contagem
  rw [List.filterMap_map]
  apply filterMap_eq_map_of_forall_some
  intro k hk
  show ((df_total ps).lookup (k.1, k.2.1)).map _ = _
  rw [df_total_lookup_mem (pair_of_triple_mem hk)]
  rfl

theorem distTable_filter_eq (attr : Profile → Option String) (ps : List Profile)
    (t : Int) (m : String) :
    (distTable attr ps).filter (fun r => r.turma == t && r.mf == m)
      = ((tripleKeys attr ps).filter (fun k => k.1 == t && k.2.1 == m)).map
          (distRowOf attr ps) := by
  rw [distTable_eq_map, List.filter_map]
  exact congrArg _ (List.filter_congr (fun k _ => rfl))

theorem tripleCount_eq_count (attr : Profile → Option String) (ps : List Profile)
    (t : Int) (m : String) (c : String) :
    tripleCount attr ps (t, m, c)
      = ((ps.filter (fun p => p.turma == t && p.mf == some m)).filterMap attr).count c := by
  rw [List.count_filterMap, List.countP_eq_length_filter, List.filter_filter]
  unfold tripleCount
  exact congrArg List.length (List.filter_congr (fun p _ => by rw [Bool.and_comm]))

/-! ### Rounding bounds -/

theorem abs_round1_sub_le (q : ℚ) : |round1 q - q| ≤ 1 / 20 := by
  unfold round1
  have h := abs_sub_round (10 * q)
  rw [abs_sub_comm] at h
  have h10 : ((round (10 * q) : ℤ) : ℚ) / 10 - q
      = (((round (10 * q) : ℤ) : ℚ) - 10 * q) / 10 := by ring
  rw [h10, abs_div, show |(10 : ℚ)| = 10 by norm_num]
  linarith

theorem round1_zero : round1 0 = 0 := by
  unfold round1
  rw [mul_zero, round_zero]
  norm_num

theorem list_sum_abs_sub_le {α : Type _} (l : List α) (f g : α → ℚ) (e : ℚ)
    (h : ∀ x ∈ l, |f x - g x| ≤ e) :
    |(l.map f).sum - (l.map g).sum| ≤ (l.length : ℚ) * e := by
  induction l with
  | nil => simp
  | cons a l ih =>
    have ha := h a (List.mem_cons_self _ _)
    have hl := ih (fun x hx => h x (List.mem_cons_of_mem _ hx))
    rw [List.map_cons, List.map_cons, List.sum_cons, List.sum_cons, List.length_cons]
    have hsplit : f a + (l.map f).sum - (g a + (l.map g).sum)
        = (f a - g a) + ((l.map f).sum - (l.map g).sum) := by ring
    rw [hsplit]
    calc |(f a - g a) + ((l.map f).sum - (l.map g).sum)|
        ≤ |f a - g a| + |(l.map f).sum - (l.map g).sum| := abs_add _ _
      _ ≤ e + (l.length : ℚ) * e := add_le_add ha hl
      _ = ((l.length + 1 : ℕ) : ℚ) * e := by push_cast; ring

theorem mem_filterK_iff (attr : Profile → Option String) (ps : List Profile)
    (t : Int) (m : String) {k : Int × String × String} :
    k ∈ (tripleKeys attr ps).filter (fun k => k.1 == t && k.2.1 == m) ↔
      ∃ c, k = (t, m, c) ∧
        c ∈ (ps.filter (fun p => p.turma == t && p.mf == some m)).filterMap attr := by
  rcases k with ⟨k1, k2, k3⟩
  rw [List.mem_filter, mem_tripleKeys_iff]
  constructor
  · rintro ⟨⟨p, hp, h1, h2, h3⟩, hb⟩
    rw [Bool.and_eq_true, beq_iff_eq, beq_iff_eq] at hb
    obtain ⟨hbt, hbm⟩ := hb
    simp only at hbt hbm h1 h2 h3
    subst hbt
    subst hbm
    refine ⟨k3, rfl, ?_⟩
    refine List.mem_filterMap.mpr ⟨p, List.mem_filter.mpr ⟨hp, ?_⟩, h3⟩
    rw [Bool.and_eq_true, beq_iff_eq, beq_iff_eq]
    exact ⟨h1, h2⟩
  · rintro ⟨c, hc, hmem⟩
    obtain ⟨rfl, rfl, rfl⟩ : k1 = t ∧ k2 = m ∧ k3 = c := by
      simpa [Prod.ext_iff] using hc
    rcases List.mem_filterMap.mp hmem with ⟨p, hpf, hpa⟩
    rcases List.mem_filter.mp hpf with ⟨hp, hb⟩
    rw [Bool.and_eq_true, beq_iff_eq, beq_iff_eq] at hb
    exact ⟨⟨p, hp, hb.1, hb.2, hpa⟩, by simp⟩

theorem nRows_distTable (attr : Profile → Option String) (ps : List Profile)
    (t : Int) (m : String) :
    nRows (distTable attr ps) t m
      = ((tripleKeys attr ps).filter (fun k => k.1 == t && k.2.1 == m)).length := by
  unfold nRows
  rw [distTable_filter_eq, List.length_map]

theorem sumPctPre_distTable (attr : Profile → Option String) (ps : List Profile)
    (t : Int) (m : String) :
    sumPctPre (distTable attr ps) t m
      = 100 / ((ps.filter (fun p => p.turma == t && p.mf == some m)).length : ℚ)
        * (((ps.filter (fun p => p.turma == t && p.mf == some m)).filterMap attr).length : ℚ) := by
  have hvals : ∀ k ∈ (tripleKeys attr ps).filter (fun k => k.1 == t && k.2.1 == m),
      ((fun r : DistRow => 100 * (r.contagem : ℚ) / (r.total : ℚ)) ∘ distRowOf attr ps) k
        = 100 / ((ps.filter (fun p => p.turma == t && p.mf == some m)).length : ℚ)
          * ((((ps.filter (fun p => p.turma == t && p.mf == some m)).filterMap attr).count k.2.2 : ℚ)) := by
    intro k hk
    rcases (mem_filterK_iff attr ps t m).mp hk with ⟨c, rfl, hc⟩
    show 100 * (tripleCount attr ps (t, m, c) : ℚ) / (pairCount ps (t, m) : ℚ) = _
    rw [tripleCount_eq_count]
    have hpc : pairCount ps (t, m)
        = (ps.filter (fun p => p.turma == t && p.mf == some m)).length := rfl
    rw [hpc]
    ring
  have hKnodup : ((tripleKeys attr ps).filter (fun k => k.1 == t && k.2.1 == m)).Nodup :=
    List.Nodup.filter _ (by unfold tripleKeys; exact List.nodup_dedup _)
  have hcsnodup :
      ((ps.filter (fun p => p.turma == t && p.mf == some m)).filterMap attr).dedup.Nodup :=
    List.nodup_dedup _
  unfold sumPctPre
  rw [distTable_filter_eq, List.map_map, List.map_congr_left hvals,
    ← List.sum_toFinset _ hKnodup]
  have hfin : ((tripleKeys attr ps).filter (fun k => k.1 == t && k.2.1 == m)).toFinset
      = (((ps.filter (fun p => p.turma == t && p.mf == some m)).filterMap
          attr).dedup.toFinset).image (fun c => (t, m, c)) := by
    ext k
    rw [List.mem_toFinset, Finset.mem_image, mem_filterK_iff]
    constructor
    · rintro ⟨c, rfl, hc⟩
      exact ⟨c, by rw [List.mem_toFinset, List.mem_dedup]; exact hc, rfl⟩
    · rintro ⟨c, hc, rfl⟩
      exact ⟨c, rfl, by rw [List.mem_toFinset, List.mem_dedup] at hc; exact hc⟩
  rw [hfin, Finset.sum_image (by
    intro x hx y hy hxy
    simpa using hxy)]
  rw [List.sum_toFinset _ hcsnodup, List.sum_map_mul_left]
  congr 1
  have hcast : (((ps.filter (fun p => p.turma == t && p.mf == some m)).filterMap
        attr).dedup.map
          (fun c => (((ps.filter (fun p => p.turma == t && p.mf == some m)).filterMap
            attr).count c : ℚ))).sum
      = ((((ps.filter (fun p => p.turma == t && p.mf == some m)).filterMap
          attr).dedup.map
            (fun c => ((ps.filter (fun p => p.turma == t && p.mf == some m)).filterMap
              attr).count c)).sum : ℕ) := by
    rw [Nat.cast_list_sum, List.map_map]
    rfl
  rw [hcast, List.sum_map_count_dedup_eq_length]

theorem sumPct_sub_sumPctPre (attr : Profile → Option String) (ps : List Profile)
    (t : Int) (m : String) :
    |sumPct (distTable attr ps) t m - sumPctPre (distTable attr ps) t m|
      ≤ (nRows (distTable attr ps) t m : ℚ) * (1 / 20) := by
  unfold sumPct sumPctPre nRows
  rw [distTable_filter_eq]
  simp only [List.map_map, List.length_map]
  exact list_sum_abs_sub_le _ _ _ _ (fun k _ => abs_round1_sub_le _)

theorem distribution_sum_general (attr : Profile → Option String) (ps : List Profile)
    (t : Int) (m : String)
    (hne : ps.filter (fun p => p.turma == t && p.mf == some m) ≠ [])
    (hall : ∀ p ∈ ps.filter (fun p => p.turma == t && p.mf == some m), (attr p).isSome) :
    sumPctPre (distTable attr ps) t m = 100 ∧
    |sumPct (distTable attr ps) t m - 100|
      ≤ (nRows (distTable attr ps) t m : ℚ) * (1 / 20) := by
  have hlen : ((ps.filter (fun p => p.turma == t && p.mf == some m)).filterMap attr).length
      = (ps.filter (fun p => p.turma == t && p.mf == some m)).length :=
    length_filterMap_of_forall_some _ hall
  have hpos : 0 < (ps.filter (fun p => p.turma == t && p.mf == some m)).length :=
    List.length_pos.mpr hne
  have hN : ((ps.filter (fun p => p.turma == t && p.mf == some m)).length : ℚ) ≠ 0 :=
    Nat.cast_ne_zero.mpr (Nat.pos_iff_ne_zero.mp hpos)
  have hpre : sumPctPre (distTable attr ps) t m = 100 := by
    rw [sumPctPre_distTable, hlen, div_mul_cancel₀ _ hN]
  refine ⟨hpre, ?_⟩
  have hb := sumPct_sub_sumPctPre attr ps t m
  rw [hpre] at hb
  exact hb

/-- C1 (amended): for a (Turma, MF) group all of whose profiles have a
present attainment on a track, the percentages of the rows present for that
group in the distribution table sum to exactly 100 before rounding, and
after the 1-decimal rounding the sum is within 1/20 per row of 100.  (The
unamended claim fails when a profile of the group has a missing attainment:
see the counterexample and claim C10.) -/
theorem distribution_sum_amended :
    ∀ (ps : List Profile) (t : Int) (m : String),
      ps.filter (fun p => p.turma == t && p.mf == some m) ≠ [] →
      ((∀ p ∈ ps.filter (fun p => p.turma == t && p.mf == some m), (p.curvaAuC).isSome) →
        sumPctPre (df_auc_pct ps) t m = 100 ∧
        |sumPct (df_auc_pct ps) t m - 100| ≤ (nRows (df_auc_pct ps) t m : ℚ) * (1 / 20)) ∧
      ((∀ p ∈ ps.filter (fun p => p.turma == t && p.mf == some m), (p.curvaReceita).isSome) →
        sumPctPre (df_receita_pct ps) t m = 100 ∧
        |sumPct (df_receita_pct ps) t m - 100| ≤ (nRows (df_receita_pct ps) t m : ℚ) * (1 / 20)) := by
  intro ps t m hne
  exact ⟨fun h => distribution_sum_general _ ps t m hne h,
    fun h => distribution_sum_general _ ps t m hne h⟩

/-- Three consolidated profiles of one cohort and segment with attainments
A, B, B. -/
def psABB : List Profile :=
  [⟨"a", 1, some "Profissionais em migração de carreira", some "A", some "A", "Ativo"⟩,
   ⟨"b", 1, some "Profissionais em migração de carreira", some "B", some "B", "Ativo"⟩,
   ⟨"c", 1, some "Profissionais em migração de carreira", some "B", some "B", "Ativo"⟩]

/-- Witness for amended C1: the A, B, B group is nonempty with all
attainments present, and the instantiated theorem yields the sums. -/
theorem distribution_sum_amended_witness :
    (psABB.filter (fun p => p.turma == 1 &&
        p.mf == some "Profissionais em migração de carreira") ≠ [] ∧
      ∀ p ∈ psABB.filter (fun p => p.turma == 1 &&
        p.mf == some "Profissionais em migração de carreira"), (p.curvaAuC).isSome) ∧
    (sumPctPre (df_auc_pct psABB) 1 "Profissionais em migração de carreira" = 100 ∧
      |sumPct (df_auc_pct psABB) 1 "Profissionais em migração de carreira" - 100|
        ≤ (nRows (df_auc_pct psABB) 1 "Profissionais em migração de carreira" : ℚ) * (1 / 20)) :=
  ⟨⟨by decide, by decide⟩,
    (distribution_sum_amended psABB 1 "Profissionais em migração de carreira"
      (by decide)).1 (by decide)⟩

/-- Two raw records of the same cohort and segment, one with a missing AuC
attainment. -/
def recsNullA : List RawRecord :=
  [⟨"a", some 1, 1, "Sim", none, none, "Ativo"⟩,
   ⟨"b", some 1, 1, "Sim", some "A", some "A", "Ativo"⟩]

/-- Counterexample to C1 as stated: on recsNullA the (1, MF) group is
nonempty, yet the percentages present for it in the AuC distribution table
sum to 50, not 100, and not within rounding tolerance of 100. -/
theorem distribution_sum_counterexample :
    (load_and_prepare_data recsNullA).filter
        (fun p => p.turma == 1 &&
          p.mf == some "Profissionais de mercado financeiro (MF)") ≠ [] ∧
    sumPctPre (df_auc_pct (load_and_prepare_data recsNullA)) 1
        "Profissionais de mercado financeiro (MF)" ≠ 100 ∧
    ¬ (|sumPct (df_auc_pct (load_and_prepare_data recsNullA)) 1
          "Profissionais de mercado financeiro (MF)" - 100|
        ≤ (nRows (df_auc_pct (load_and_prepare_data recsNullA)) 1
            "Profissionais de mercado financeiro (MF)" : ℚ) * (1 / 20)) := by
  have hrow : round1 (100 * ((1 : ℕ) : ℚ) / ((2 : ℕ) : ℚ)) = 50 := by
    unfold round1
    push_cast
    norm_num [round_eq]
  have hpre : sumPctPre (df_auc_pct (load_and_prepare_data recsNullA)) 1
      "Profissionais de mercado financeiro (MF)"
      = 100 * ((1 : ℕ) : ℚ) / ((2 : ℕ) : ℚ) + 0 := rfl
  have hpost : sumPct (df_auc_pct (load_and_prepare_data recsNullA)) 1
      "Profissionais de mercado financeiro (MF)"
      = round1 (100 * ((1 : ℕ) : ℚ) / ((2 : ℕ) : ℚ)) + 0 := rfl
  have hn : nRows (df_auc_pct (load_and_prepare_data recsNullA)) 1
      "Profissionais de mercado financeiro (MF)" = 1 := rfl
  refine ⟨by decide, ?_, ?_⟩
  · rw [hpre]
    push_cast
    norm_num
  · rw [hpost, hrow, hn]
    push_cast
    norm_num

theorem sumPctPre_lt_100 (attr : Profile → Option String) (ps : List Profile)
    (t : Int) (m : String)
    (hex : ∃ p ∈ ps, p.turma = t ∧ p.mf = some m ∧ attr p = none) :
    sumPctPre (distTable attr ps) t m < 100 := by
  rcases hex with ⟨p, hp, h1, h2, h3⟩
  have hpG : p ∈ ps.filter (fun p => p.turma == t && p.mf == some m) :=
    List.mem_filter.mpr ⟨hp, by
      rw [Bool.and_eq_true, beq_iff_eq, beq_iff_eq]
      exact ⟨h1, h2⟩⟩
  have hlt : ((ps.filter (fun p => p.turma == t && p.mf == some m)).filterMap attr).length
      < (ps.filter (fun p => p.turma == t && p.mf == some m)).length :=
    length_filterMap_lt_of_none hpG h3
  have hpos : (0 : ℚ) < ((ps.filter (fun p => p.turma == t && p.mf == some m)).length : ℚ) := by
    exact_mod_cast List.length_pos_of_mem hpG
  rw [sumPctPre_distTable]
  calc 100 / ((ps.filter (fun p => p.turma == t && p.mf == some m)).length : ℚ)
        * (((ps.filter (fun p => p.turma == t && p.mf == some m)).filterMap attr).length : ℚ)
      < 100 / ((ps.filter (fun p => p.turma == t && p.mf == some m)).length : ℚ)
        * ((ps.filter (fun p => p.turma == t && p.mf == some m)).length : ℚ) := by
        apply mul_lt_mul_of_pos_left
        · exact_mod_cast hlt
        · exact div_pos (by norm_num) hpos
    _ = 100 := div_mul_cancel₀ _ (ne_of_gt hpos)

/-- C10: a profile whose attainment is missing on a track is counted in the
(Turma, MF) denominator of df_total but contributes no row to that track's
distribution table, so when such a profile exists the present pre-rounding
percentages of its group sum to strictly less than 100. -/
theorem null_attainment_policy :
    ∀ (ps : List Profile) (t : Int) (m : String),
      (∃ p ∈ ps, p.turma = t ∧ p.mf = some m) →
      (df_total ps).lookup (t, m)
          = some ((ps.filter (fun p => p.turma == t && p.mf == some m)).length) ∧
      ((∃ p ∈ ps, p.turma = t ∧ p.mf = some m ∧ p.curvaAuC = none) →
        sumPctPre (df_auc_pct ps) t m < 100) ∧
      ((∃ p ∈ ps, p.turma = t ∧ p.mf = some m ∧ p.curvaReceita = none) →
        sumPctPre (df_receita_pct ps) t m < 100) := by
  intro ps t m hex
  refine ⟨?_, fun h => sumPctPre_lt_100 _ ps t m h, fun h => sumPctPre_lt_100 _ ps t m h⟩
  have hk : (t, m) ∈ pairKeys ps := by
    rcases hex with ⟨p, hp, h1, h2⟩
    exact mem_pairKeys_iff.mpr ⟨p, hp, h1, h2⟩
  rw [df_total_lookup_mem hk]
  rfl

/-- Two profiles of one group, one with a missing AuC attainment. -/
def psNull : List Profile :=
  [⟨"a", 1, some "Profissionais de mercado financeiro (MF)", none, none, "Ativo"⟩,
   ⟨"b", 1, some "Profissionais de mercado financeiro (MF)", some "A", some "A", "Ativo"⟩]

/-- Witness for C10: with one null-attainment profile in a group of two, the
group is in the denominator table with size 2 and the present percentages
sum below 100. -/
theorem null_attainment_policy_witness :
    ((∃ p ∈ psNull, p.turma = 1 ∧
        p.mf = some "Profissionais de mercado financeiro (MF)") ∧
      (∃ p ∈ psNull, p.turma = 1 ∧
        p.mf = some "Profissionais de mercado financeiro (MF)" ∧ p.curvaAuC = none)) ∧
    sumPctPre (df_auc_pct psNull) 1 "Profissionais de mercado financeiro (MF)" < 100 :=
  ⟨⟨by decide, by decide⟩,
    (null_attainment_policy psNull 1 "Profissionais de mercado financeiro (MF)"
      (by decide)).2.1 (by decide)⟩

/-! ### Claim C2: the churn table -/

/-- The churn row produced by one (Turma, MF) key. -/
def churnRowOf (ps : List Profile) (k : Int × String) : ChurnRow where
  turma := k.1
  mf := k.2
  total := pairCount ps k
  desligados := ((df_desligados ps).lookup k).getD 0
  taxa := round1 (100 * (((df_desligados ps).lookup k).getD 0 : ℚ) / (pairCount ps k : ℚ))

theorem df_deslig_pct_eq_map (ps : List Profile) :
    df_deslig_pct ps = (pairKeys ps).map (churnRowOf ps) := by
  unfold df_deslig_pct df_total
  rw [List.map_map]
  rfl

theorem churn_filter_eq (ps : List Profile) (t : Int) (m : String) :
    (df_deslig_pct ps).filter (fun r => r.turma == t && r.mf == m)
      = ((pairKeys ps).filter (fun k => k.1 == t && k.2 == m)).map (churnRowOf ps) := by
  rw [df_deslig_pct_eq_map, List.filter_map]
  exact congrArg _ (List.filter_congr (fun k _ => rfl))

theorem length_filter_beq_of_nodup {α : Type _} [BEq α] [LawfulBEq α] [DecidableEq α] :
    ∀ {l : List α}, l.Nodup → ∀ a : α,
      (l.filter (fun x => x == a)).length = if a ∈ l then 1 else 0 := by
  intro l
  induction l with
  | nil => intro _ a; simp
  | cons b l ih =>
    intro hnd a
    rcases List.nodup_cons.mp hnd with ⟨hb, hl⟩
    rw [List.filter_cons]
    by_cases hba : b = a
    · subst hba
      have hzero : ∀ x ∈ l, (x == b) = false :=
        fun x hx => beq_false_of_ne (fun he => hb (he ▸ hx))
      rw [List.filter_congr hzero, List.filter_false]
      simp
    · rw [beq_false_of_ne hba]
      simp only [Bool.false_eq_true, if_false]
      rw [ih hl a]
      by_cases hal : a ∈ l
      · rw [if_pos hal, if_pos (List.mem_cons_of_mem _ hal)]
      · rw [if_neg hal, if_neg (by
          intro hc
          rcases List.mem_cons.mp hc with he | hm
          · exact hba he.symm
          · exact hal hm)]

theorem length_filter_key (ps : List Profile) (t : Int) (m : String) :
    ((pairKeys ps).filter (fun k => k.1 == t && k.2 == m)).length
      = if (t, m) ∈ pairKeys ps then 1 else 0 := by
  have hnd : (pairKeys ps).Nodup := by unfold pairKeys; exact List.nodup_dedup _
  have hpred : ∀ k ∈ pairKeys ps, (k.1 == t && k.2 == m) = (k == (t, m)) := by
    intro k _
    rcases k with ⟨k1, k2⟩
    rfl
  rw [List.filter_congr hpred, length_filter_beq_of_nodup hnd (t, m)]

/-- C2: the churn table has exactly one row for every (Turma, MF) pair with
at least one profile and none for any other pair, and when the group has no
Desligado member that row carries zero terminated members and churn rate 0. -/
theorem churn_non_sparsity :
    ∀ (ps : List Profile) (t : Int) (m : String),
      ((df_deslig_pct ps).filter (fun r => r.turma == t && r.mf == m)).length
        = (if ∃ p ∈ ps, p.turma = t ∧ p.mf = some m then 1 else 0) ∧
      ((∀ p ∈ ps, p.turma = t → p.mf = some m → p.status ≠ "Desligado") →
        ∀ r ∈ df_deslig_pct ps, r.turma = t → r.mf = m →
          r.desligados = 0 ∧ r.taxa = 0) := by
  intro ps t m
  constructor
  · rw [churn_filter_eq, List.length_map, length_filter_key]
    simp only [mem_pairKeys_iff]
  · intro hno r hr ht hm
    rw [df_deslig_pct_eq_map] at hr
    rcases List.mem_map.mp hr with ⟨k, hkmem, hkeq⟩
    subst hkeq
    have hk1 : k.1 = t := ht
    have hk2 : k.2 = m := hm
    have hkk : k = (t, m) := Prod.ext hk1 hk2
    have hnotin : (t, m) ∉ pairKeys (ps.filter (fun p => p.status == "Desligado")) := by
      intro hcon
      rcases mem_pairKeys_iff.mp hcon with ⟨p, hpf, hp1, hp2⟩
      rcases List.mem_filter.mp hpf with ⟨hp, hst⟩
      exact hno p hp (by simpa using hp1) (by simpa using hp2) (beq_iff_eq.mp hst)
    have hlook : (df_desligados ps).lookup (t, m) = none := by
      unfold df_desligados
      exact df_total_lookup_not_mem hnotin
    constructor
    · show ((df_desligados ps).lookup k).getD 0 = 0
      rw [hkk, hlook]
      rfl
    · show round1 (100 * (((df_desligados ps).lookup k).getD 0 : ℚ)
          / (pairCount ps k : ℚ)) = 0
      rw [hkk, hlook]
      show round1 (100 * ((0 : ℕ) : ℚ) / (pairCount ps (t, m) : ℚ)) = 0
      rw [Nat.cast_zero, mul_zero, zero_div, round1_zero]

/-- Two active profiles of one group, nobody terminated. -/
def psChurn : List Profile :=
  [⟨"a", 1, some "Profissionais em migração de carreira", some "A", some "A", "Ativo"⟩,
   ⟨"b", 1, some "Profissionais em migração de carreira", some "B", some "B", "Ativo"⟩]

/-- Witness for C2: a group of two active profiles yields a churn row with
zero terminated members and rate 0. -/
theorem churn_non_sparsity_witness :
    (∀ p ∈ psChurn, p.turma = 1 →
      p.mf = some "Profissionais em migração de carreira" → p.status ≠ "Desligado") ∧
    ∃ r ∈ df_deslig_pct psChurn, r.turma = 1 ∧
      r.mf = "Profissionais em migração de carreira" ∧ r.desligados = 0 ∧ r.taxa = 0 := by
  have htbl : df_deslig_pct psChurn
      = [⟨1, "Profissionais em migração de carreira", 2, 0,
          round1 (100 * ((0 : ℕ) : ℚ) / ((2 : ℕ) : ℚ))⟩] := rfl
  have hmem : (⟨1, "Profissionais em migração de carreira", 2, 0,
      round1 (100 * ((0 : ℕ) : ℚ) / ((2 : ℕ) : ℚ))⟩ : ChurnRow)
      ∈ df_deslig_pct psChurn := by
    rw [htbl]
    exact List.mem_cons_self _ _
  have happ := (churn_non_sparsity psChurn 1 "Profissionais em migração de carreira").2
    (by decide) _ hmem rfl rfl
  exact ⟨by decide, _, hmem, rfl, rfl, happ.1, happ.2⟩

/-! ### Claim C8: empty selection -/

/-- C8: an empty cohort selection filters the profile frame to nothing, and
on an empty profile frame both distribution tables and the churn table are
empty and well formed; every computation is total, so no exception and no
division is performed. -/
theorem empty_selection_empty_tables :
    (∀ ps : List Profile, dfFiltered ps ∅ = []) ∧
    df_auc_pct [] = [] ∧ df_receita_pct [] = [] ∧ df_deslig_pct [] = [] := by
  refine ⟨?_, rfl, rfl, rfl⟩
  intro ps
  unfold dfFiltered
  simp

/-! ### Claim C7: unknown categorical values -/

theorem distTable_curva_mem (attr : Profile → Option String) (ps : List Profile)
    (c : String) :
    (∃ r ∈ distTable attr ps, r.curva = c) ↔
      ∃ p ∈ ps, ∃ m, p.mf = some m ∧ attr p = some c := by
  rw [distTable_eq_map]
  constructor
  · rintro ⟨r, hr, hc⟩
    rcases List.mem_map.mp hr with ⟨k, hk, hkr⟩
    rcases mem_tripleKeys_iff.mp hk with ⟨p, hp, h1, h2, h3⟩
    refine ⟨p, hp, k.2.1, h2, ?_⟩
    rw [← hkr] at hc
    have hc2 : k.2.2 = c := hc
    rw [h3, hc2]
  · rintro ⟨p, hp, m, h2, h3⟩
    exact ⟨distRowOf attr ps (p.turma, m, c),
      List.mem_map.mpr ⟨(p.turma, m, c),
        mem_tripleKeys_iff.mpr ⟨p, hp, rfl, h2, h3⟩, rfl⟩, rfl⟩

/-- One raw record whose Status is the unknown value Afastado. -/
def recsAfastado : List RawRecord :=
  [⟨"w", some 1, 1, "Sim", some "A", some "A", "Afastado"⟩]

/-- Counterexample to C7 as stated: a lifecycle status outside the expected
alphabet is not kept as its own category — the single Afastado record
consolidates to status Ativo and is counted as a non-terminated member by the
churn table. -/
theorem unknown_status_merged_counterexample :
    (load_and_prepare_data recsAfastado).map (fun p => p.status) = ["Ativo"] ∧
    (df_deslig_pct (load_and_prepare_data recsAfastado)).map (fun r => r.desligados)
      = [0] :=
  ⟨by decide, by decide⟩

/-- C7 (amended): an attainment letter outside the expected alphabet is kept
as its own category when counting — for every string c, a distribution row
with letter c exists exactly when some profile carries attainment c — while a
lifecycle status outside the alphabet is not rejected but silently merged:
every consolidated status is Desligado or Ativo. -/
theorem unknown_category_amended :
    (∀ (ps : List Profile) (c : String),
      ((∃ r ∈ df_auc_pct ps, r.curva = c) ↔
        ∃ p ∈ ps, ∃ m, p.mf = some m ∧ p.curvaAuC = some c) ∧
      ((∃ r ∈ df_receita_pct ps, r.curva = c) ↔
        ∃ p ∈ ps, ∃ m, p.mf = some m ∧ p.curvaReceita = some c)) ∧
    (∀ (records : List RawRecord) (p : Profile), p ∈ load_and_prepare_data records →
      p.status = "Desligado" ∨ p.status = "Ativo") := by
  constructor
  · intro ps c
    exact ⟨distTable_curva_mem _ ps c, distTable_curva_mem _ ps c⟩
  · intro records p hp
    obtain ⟨g, _, hpg, _, _⟩ := load_group_spec hp
    have hst : p.status =
        (if g.any (fun r => r.status == "Desligado") then "Desligado" else "Ativo") := by
      rw [hpg]; rfl
    cases hany : g.any (fun r => r.status == "Desligado")
    · rw [hany] at hst
      simp only [Bool.false_eq_true, if_false] at hst
      exact Or.inr hst
    · rw [hany] at hst
      simp only [if_true] at hst
      exact Or.inl hst

/-- One profile carrying the out-of-alphabet attainment letter E. -/
def psLetterE : List Profile :=
  [⟨"a", 1, some "Profissionais de mercado financeiro (MF)", some "E", some "E", "Ativo"⟩]

/-- The consolidated profile of recsAfastado. -/
def profAfastado : Profile :=
  ⟨"w", 1, some "Profissionais de mercado financeiro (MF)", some "A", some "A", "Ativo"⟩

/-- Witness for amended C7: the letter E yields its own distribution row, and
the Afastado record consolidates into the closed status alphabet. -/
theorem unknown_category_amended_witness :
    ((∃ p ∈ psLetterE, ∃ m, p.mf = some m ∧ p.curvaAuC = some "E") ∧
      profAfastado ∈ load_and_prepare_data recsAfastado) ∧
    (∃ r ∈ df_auc_pct psLetterE, r.curva = "E") ∧
    (profAfastado.status = "Desligado" ∨ profAfastado.status = "Ativo") :=
  ⟨⟨by decide, by decide⟩,
    ((unknown_category_amended.1 psLetterE "E").1).mpr (by decide),
    unknown_category_amended.2 recsAfastado profAfastado (by decide)⟩

/-! ### Claim C9: selection resolution -/

theorem mem_selecao_fold (avail : List Int) :
    ∀ (sel : List SelItem) (s0 : Finset Int) (x : Int),
      (x ∈ sel.foldl (fun s item =>
        match item with
        | .selecionarTodas => s ∪ avail.toFinset
        | .dadosFce => s ∪ (avail.filter (fun t => 24 ≤ t)).toFinset
        | .dadosSemFce => s ∪ (avail.filter (fun t => t < 24)).toFinset
        | .turma t => insert t s) s0)
      ↔ x ∈ s0 ∨ ∃ i ∈ sel, x ∈ expandItem avail i := by
  intro sel
  induction sel with
  | nil =>
    intro s0 x
    simp
  | cons i sel ih =>
    intro s0 x
    rw [List.foldl_cons, ih]
    cases i with
    | selecionarTodas =>
      simp [expandItem, or_assoc]
    | dadosFce =>
      simp [expandItem, or_assoc]
    | dadosSemFce =>
      simp [expandItem, or_assoc]
    | turma t =>
      simp only [Finset.mem_insert, expandItem, List.exists_mem_cons_iff,
        Finset.mem_singleton]
      tauto

/-- C9: the resolved cohort selection is the deduplicated union of the
expansions of the selected items; hence it is order independent, and picking
both threshold macros together resolves to the same set as Selecionar todas. -/
theorem selection_resolution_union :
    ∀ (avail : List Int) (sel : List SelItem),
      turmasSelecionadasSet avail sel = sel.toFinset.biUnion (expandItem avail) ∧
      (∀ sel2 : List SelItem, sel.Perm sel2 →
        turmasSelecionadasSet avail sel = turmasSelecionadasSet avail sel2) ∧
      turmasSelecionadasSet avail [SelItem.dadosFce, SelItem.dadosSemFce]
        = turmasSelecionadasSet avail [SelItem.selecionarTodas] := by
  intro avail sel
  have hmem : ∀ (sel : List SelItem) (x : Int),
      x ∈ turmasSelecionadasSet avail sel ↔ ∃ i ∈ sel, x ∈ expandItem avail i := by
    intro sel x
    unfold turmasSelecionadasSet
    rw [mem_selecao_fold]
    simp
  refine ⟨?_, ?_, ?_⟩
  · ext x
    rw [hmem, Finset.mem_biUnion]
    constructor
    · rintro ⟨i, hi, hx⟩
      exact ⟨i, List.mem_toFinset.mpr hi, hx⟩
    · rintro ⟨i, hi, hx⟩
      exact ⟨i, List.mem_toFinset.mp hi, hx⟩
  · intro sel2 hp
    ext x
    rw [hmem, hmem]
    constructor
    · rintro ⟨i, hi, hx⟩
      exact ⟨i, hp.mem_iff.mp hi, hx⟩
    · rintro ⟨i, hi, hx⟩
      exact ⟨i, hp.mem_iff.mpr hi, hx⟩
  · ext x
    rw [hmem, hmem]
    simp only [List.mem_cons, List.not_mem_nil, or_false]
    constructor
    · rintro ⟨i, hi, hx⟩
      refine ⟨SelItem.selecionarTodas, rfl, ?_⟩
      rcases hi with rfl | rfl
      · simp only [expandItem] at hx
        rcases List.mem_filter.mp (List.mem_toFinset.mp hx) with ⟨ha, _⟩
        exact List.mem_toFinset.mpr ha
      · simp only [expandItem] at hx
        rcases List.mem_filter.mp (List.mem_toFinset.mp hx) with ⟨ha, _⟩
        exact List.mem_toFinset.mpr ha
    · rintro ⟨i, hi, hx⟩
      rcases hi with rfl
      simp only [expandItem] at hx
      by_cases h24 : (24 : Int) ≤ x
      · refine ⟨SelItem.dadosFce, Or.inl rfl, ?_⟩
        simp only [expandItem]
        exact List.mem_toFinset.mpr
          (List.mem_filter.mpr ⟨List.mem_toFinset.mp hx, by simpa using h24⟩)
      · refine ⟨SelItem.dadosSemFce, Or.inr rfl, ?_⟩
        simp only [expandItem]
        refine List.mem_toFinset.mpr
          (List.mem_filter.mpr ⟨List.mem_toFinset.mp hx, ?_⟩)
        simp only [decide_eq_true_eq]
        omega

/-- Witness for C9: on cohorts 10 and 30, resolving a permuted selection
gives the same set. -/
theorem selection_resolution_union_witness :
    [SelItem.turma 30, SelItem.dadosSemFce].Perm
      [SelItem.dadosSemFce, SelItem.turma 30] ∧
    turmasSelecionadasSet [10, 30] [SelItem.turma 30, SelItem.dadosSemFce]
      = turmasSelecionadasSet [10, 30] [SelItem.dadosSemFce, SelItem.turma 30] :=
  ⟨by decide,
    (selection_resolution_union [10, 30] [SelItem.turma 30, SelItem.dadosSemFce]).2.1
      [SelItem.dadosSemFce, SelItem.turma 30] (by decide)⟩

/-! ### Claim C6: the cohort comes from the chronologically first record -/

/-- C6: for every consultant whose records all carry a parseable timestamp,
the consolidated Turma equals the Turma of the chronologically first record
of that consultant under the stable sort by (E-mail, Data): the first record
in input order whose Data key is minimal.  The fixed sorting rule for the
unknown-timestamp sentinel is stated alongside: none sorts after every
parsed timestamp. -/
theorem cohort_from_first_record :
    ∀ (records : List RawRecord) (p : Profile), p ∈ load_and_prepare_data records →
      ((∀ r ∈ records, r.email = p.email → (r.data).isSome) →
        ∃ r0, chronoFirst (records.filter (fun r => r.email == p.email)) = some r0 ∧
          p.turma = r0.turma) ∧
      ((∀ d, dataLeB (some d) none = true) ∧
        (∀ d, dataLeB none (some d) = false) ∧ dataLeB none none = true) := by
  intro records p hp
  refine ⟨?_, fun d => rfl, fun d => rfl, rfl⟩
  intro _hparse
  obtain ⟨g, hgdef, hpg, hne, hperm⟩ := load_group_spec hp
  obtain ⟨hd, tl, hcons⟩ : ∃ hd tl, g = hd :: tl := by
    cases g with
    | nil => exact absurd rfl hne
    | cons a b => exact ⟨a, b, rfl⟩
  have hturma : p.turma = hd.turma := by
    rw [hpg, hcons]
    rfl
  have hpw : List.Pairwise recLe g := by
    rw [hgdef]
    exact List.Pairwise.filter _ (List.sorted_insertionSort recLe records)
  have hgem : ∀ r ∈ g, r.email = p.email := by
    intro r hr
    rw [hgdef] at hr
    exact beq_iff_eq.mp (List.mem_filter.mp hr).2
  have hdg : hd ∈ g := by
    rw [hcons]
    exact List.mem_cons_self _ _
  have hmin_g : ∀ r ∈ g, dataLeB hd.data r.data = true := by
    intro r hr
    rw [hcons] at hr
    rcases List.mem_cons.mp hr with he | htl
    · subst he
      exact dataLeB_refl _
    · have hrel : recLe hd r := by
        rw [hcons] at hpw
        exact List.rel_of_pairwise_cons hpw htl
      refine dataLeB_of_recLe_same_email ?_ hrel
      rw [hgem hd hdg, hgem r (by rw [hcons]; exact List.mem_cons_of_mem _ htl)]
  have hmin : ∀ r ∈ records.filter (fun r => r.email == p.email),
      dataLeB hd.data r.data = true := by
    intro r hr
    exact hmin_g r (hperm.mem_iff.mpr hr)
  have hdmem_my : hd ∈ records.filter (fun r => r.email == p.email) :=
    hperm.mem_iff.mp hdg
  have hl2_pairwise : List.Pairwise recLe
      (records.filter (fun r => r.email == p.email && r.data == hd.data)) := by
    apply pairwise_of_forall_mem
    intro a ha b hb
    have hpa := (List.mem_filter.mp ha).2
    have hpb := (List.mem_filter.mp hb).2
    rw [Bool.and_eq_true, beq_iff_eq, beq_iff_eq] at hpa hpb
    refine recLe_of_same_email (hpa.1.trans hpb.1.symm) ?_
    rw [hpa.2, hpb.2]
    exact dataLeB_refl _
  have hl2_sub : (records.filter
      (fun r => r.email == p.email && r.data == hd.data)).Sublist
        (sortRecords records) :=
    List.sublist_insertionSort hl2_pairwise (List.filter_sublist _)
  have hl2_all : ∀ r ∈ records.filter (fun r => r.email == p.email && r.data == hd.data),
      (r.email == p.email && r.data == hd.data) = true :=
    fun r hr => (List.mem_filter.mp hr).2
  have hl2_sub2 : (records.filter
      (fun r => r.email == p.email && r.data == hd.data)).Sublist
        ((sortRecords records).filter
          (fun r => r.email == p.email && r.data == hd.data)) := by
    have hs := List.Sublist.filter
      (fun r => r.email == p.email && r.data == hd.data) hl2_sub
    rwa [List.filter_eq_self.mpr hl2_all] at hs
  have hl2_perm : ((sortRecords records).filter
      (fun r => r.email == p.email && r.data == hd.data)).Perm
        (records.filter (fun r => r.email == p.email && r.data == hd.data)) :=
    List.Perm.filter _ (List.perm_insertionSort recLe records)
  have hl2_eq : records.filter (fun r => r.email == p.email && r.data == hd.data)
      = (sortRecords records).filter
          (fun r => r.email == p.email && r.data == hd.data) :=
    List.Sublist.eq_of_length hl2_sub2 hl2_perm.length_eq.symm
  have hfg : (sortRecords records).filter
      (fun r => r.email == p.email && r.data == hd.data)
      = g.filter (fun r => r.data == hd.data) := by
    rw [hgdef, List.filter_filter]
    exact List.filter_congr (fun r _ => by rw [Bool.and_comm])
  have hghead : (g.filter (fun r => r.data == hd.data)).head? = some hd := by
    rw [hcons, List.filter_cons]
    simp only [beq_self_eq_true, if_true]
    rfl
  have hcf : chronoFirst (records.filter (fun r => r.email == p.email))
      = (records.filter
          (fun r => r.email == p.email && r.data == hd.data)).head? := by
    unfold chronoFirst
    rw [find?_eq_head?_filter]
    congr 1
    have hPeq : ∀ r ∈ records.filter (fun r => r.email == p.email),
        ((records.filter (fun r => r.email == p.email)).all
          (fun r2 => dataLeB r.data r2.data))
          = (r.data == hd.data) := by
      intro r hr
      rw [Bool.eq_iff_iff, List.all_eq_true, beq_iff_eq]
      constructor
      · intro hall
        exact dataLeB_antisymm (hall hd hdmem_my) (hmin r hr)
      · intro heq r2 hr2
        rw [heq]
        exact hmin r2 hr2
    rw [List.filter_congr hPeq, List.filter_filter]
    exact List.filter_congr (fun r _ => by rw [Bool.and_comm])
  refine ⟨hd, ?_, hturma⟩
  rw [hcf, hl2_eq, hfg, hghead]

/-- Two records of one consultant appearing out of chronological order with
different Turma values. -/
def recsOrd : List RawRecord :=
  [⟨"u", some 5, 7, "Não", some "B", some "B", "Ativo"⟩,
   ⟨"u", some 2, 9, "Não", some "B", some "B", "Ativo"⟩]

/-- The consolidated profile of recsOrd: the Turma comes from the record with
the earliest timestamp, not the first input row. -/
def profOrd : Profile :=
  ⟨"u", 9, some "Profissionais em migração de carreira", some "B", some "B", "Ativo"⟩

/-- Witness for C6: on two out-of-order records the consolidated Turma is the
one of the chronologically first record. -/
theorem cohort_from_first_record_witness :
    (profOrd ∈ load_and_prepare_data recsOrd ∧
      ∀ r ∈ recsOrd, r.email = profOrd.email → (r.data).isSome) ∧
    ∃ r0, chronoFirst (recsOrd.filter (fun r => r.email == profOrd.email)) = some r0 ∧
      profOrd.turma = r0.turma :=
  ⟨⟨by decide, by decide⟩,
    (cohort_from_first_record recsOrd profOrd (by decide)).1 (by decide)⟩
